import Mathlib

/-!
Verification of the AMF codec and the SharedObject local store of the
sampled repository.  The wire values, the AVM2 encoder and decoder
(`core/src/avm2/amf.rs`) and the AVM1 codec and store
(`core/src/avm1/globals/shared_object.rs`) are shallowly embedded below.
Rust `f64` payloads are modelled by `Rat`: every numeric payload that occurs
in the claims is an integer far inside the range where the `i32 -> f64`
conversion of the source is exact, so the model loses nothing relevant.
Rust strings are modelled by `String` on the codec side and by `List Char`
inside the key-derivation machinery, mirroring the byte-wise operations the
source performs there.
-/

/-- AMF wire format version (`flash_lso::types::AMFVersion`). -/
inductive AMFVersion where
  | amf0
  | amf3
deriving DecidableEq, Repr

/-- Class descriptor attached to AMF3 objects
(`flash_lso::types::ClassDefinition`); the attribute set of the source only
ever carries the `Dynamic` flag here, modelled as a `Bool`. -/
structure ClassDefinition where
  name : String
  dynamic : Bool
  staticProperties : List String
deriving DecidableEq, Repr

/-- Wire value (`flash_lso::types::Value`), restricted to the constructors the
claims exercise.  `ecmaArray` carries the dense list, the sparse named
elements, and the reported length. -/
inductive AmfValue where
  | undefined
  | null
  | bool (b : Bool)
  | number (f : Rat)
  | integer (n : Int)
  | string (s : String)
  | date (time : Rat) (tz : Option Nat)
  | xml (content : String) (isString : Bool)
  | strictArray (values : List AmfValue)
  | ecmaArray (dense : List AmfValue) (assoc : List (String × AmfValue)) (len : Nat)
  | object (elements : List (String × AmfValue)) (classDef : Option ClassDefinition)

/-- Association-list lookup, first match wins: the ordered property maps of
the value model and the session caches of the store are modelled as
association lists. -/
def alookup {κ α : Type} [DecidableEq κ] : List (κ × α) → κ → Option α
  | [], _ => none
  | e :: rest, k => if e.1 = k then some e.2 else alookup rest k

/-- Association-list update: replaces the value in place when the key is
present (keeping the original slot order, as the property maps of the value
model do) and appends otherwise. -/
def aupsert {κ α : Type} [DecidableEq κ] : List ((κ × α)) → κ → α → List (κ × α)
  | [], k, v => [(k, v)]
  | e :: rest, k, v => if e.1 = k then (k, v) :: rest else e :: aupsert rest k v

/-- Association-list removal of a key, as the `remove_key` operation of the
external storage backend behaves. -/
def aremove {κ α : Type} [DecidableEq κ] : List (κ × α) → κ → List (κ × α)
  | [], _ => []
  | e :: rest, k => if e.1 = k then aremove rest k else e :: aremove rest k

namespace Avm2

/-- AVM2 value model (`avm2::Value` plus the object capabilities the encoder
inspects, in the precedence order of `serialize_value`).  Arrays carry their
dense storage and their extra enumerable properties; `date` carries the
optional millisecond timestamp of the date object; class instances beyond
the generic dynamic `Object` class are outside the scope of the claims. -/
inductive Value where
  | undefined
  | null
  | bool (b : Bool)
  | number (f : Rat)
  | integer (n : Int)
  | string (s : String)
  | executable
  | displayObject
  | array (dense : List Value) (extra : List (String × Value))
  | date (millis : Option Rat)
  | object (props : List (String × Value))

/-- Modelled from the spec: the class alias registry resolves a wire alias to
a constructible class, falling back to the generic dynamic object class when
the alias is unregistered or empty; only that generic class occurs in this
model. -/
inductive ClassRef where
  | objectClass

/-- Modelled from the spec: `resolve_alias` returns the registered wire alias
of a class and degrades to the empty string when the class is unregistered,
which is the case for the generic object class. -/
def class_to_alias : ClassRef → String := fun _ => ""

/-- Modelled from the spec: `resolve_class` returns the class registered for
an alias, or the generic dynamic object class when the alias is empty or
unregistered. -/
def alias_to_class : String → ClassRef := fun _ => ClassRef.objectClass

/-- The dense/sparse splitting loop of `serialize_value` for array-store
objects: element `i` of the serialized property list joins the dense portion
iff its name equals the decimal rendering of `i`; every other element is kept,
in order, as a sparse element. -/
def splitGo (i : Nat) : List (String × AmfValue) → List AmfValue × List (String × AmfValue)
  | [] => ([], [])
  | e :: rest =>
      let r := splitGo (i + 1) rest
      if e.1 = toString i then (e.2 :: r.1, r.2) else (r.1, e :: r.2)

/-- Dense/sparse split of the full serialized property list, starting the
enumeration index at 0, exactly as the `enumerate()` loop of the source. -/
def splitDenseSparse (values : List (String × AmfValue)) :
    List AmfValue × List (String × AmfValue) :=
  splitGo 0 values

mutual

/-- `serialize_value` of `core/src/avm2/amf.rs`: converts an AVM2 value to a
wire value, or `none` to omit the property entirely.  The integer range
bound `1 <<< 28` of the source is written `2 ^ 28`. -/
def serialize_value (amf : AMFVersion) : Value → Option AmfValue
  | .undefined => some .undefined
  | .null => some .null
  | .bool b => some (.bool b)
  | .number f => some (.number f)
  | .integer num =>
      if amf = AMFVersion.amf0 ∨ num ≥ 2 ^ 28 ∨ num < -(2 ^ 28) then
        some (.number (num : Rat))
      else
        some (.integer num)
  | .string s => some (.string s)
  | .executable => none
  | .displayObject => some .undefined
  | .array dense extra =>
      let values := serializeDense amf dense 0 ++ serializeProps amf extra
      let ds := splitDenseSparse values
      if ds.2.isEmpty then some (.strictArray ds.1)
      else some (.ecmaArray ds.1 ds.2 ds.2.length)
  | .date m =>
      m.map (fun t => .date t none)
  | .object props =>
      some (.object (serializeProps amf props)
        (if amf = AMFVersion.amf3 then
          some { name := class_to_alias ClassRef.objectClass,
                 dynamic := true, staticProperties := [] }
         else none))

/-- The enumeration half of `recursive_serialize` applied to the dense
storage of an array: enumerant `i` has the decimal name `toString i`; a value
whose serialization is `none` contributes no element.  Modelled from the
spec: dense indices enumerate in increasing order. -/
def serializeDense (amf : AMFVersion) : List Value → Nat → List (String × AmfValue)
  | [], _ => []
  | v :: rest, i =>
      match serialize_value amf v with
      | some w => (toString i, w) :: serializeDense amf rest (i + 1)
      | none => serializeDense amf rest (i + 1)

/-- The enumeration half of `recursive_serialize` applied to named
properties, visited in the object enumeration order; a value whose
serialization is `none` contributes no element. -/
def serializeProps (amf : AMFVersion) : List (String × Value) → List (String × AmfValue)
  | [] => []
  | p :: rest =>
      match serialize_value amf p.2 with
      | some w => (p.1, w) :: serializeProps amf rest
      | none => serializeProps amf rest

end

/-- Sequential public-property assignment used by the decoder, one element at
a time in listed order.  Modelled from the spec: property assignment on a
freshly decoded object stores named elements in assignment order,
overwriting in place on a repeated name. -/
def setProps (init : List (String × Value)) : List (String × Value) → List (String × Value)
  | [] => init
  | e :: rest => setProps (aupsert init e.1 e.2) rest

mutual

/-- `deserialize_value` of `core/src/avm2/amf.rs`: reconstructs an AVM2 value
from a wire value.  An `ecmaArray` first builds the array from the dense
list, then assigns each sparse element as a named property in listed order;
an `object` resolves its class descriptor through the alias registry
(always the generic object class here) and assigns each element in listed
order. -/
def deserialize_value : AmfValue → Value
  | .undefined => .undefined
  | .null => .null
  | .bool b => .bool b
  | .number f => .number f
  | .integer n => .integer n
  | .string s => .string s
  | .date t _ => .date (some t)
  | .xml _ _ => .undefined
  | .strictArray values => .array (deserializeList values) []
  | .ecmaArray dense assoc _ =>
      .array (deserializeList dense) (setProps [] (deserializeProps assoc))
  | .object elements _ =>
      .object (setProps [] (deserializeProps elements))

/-- Decodes a dense wire list elementwise, in order. -/
def deserializeList : List AmfValue → List Value
  | [] => []
  | v :: rest => deserialize_value v :: deserializeList rest

/-- Decodes the values of a named wire element list elementwise, keeping the
listed order. -/
def deserializeProps : List (String × AmfValue) → List (String × Value)
  | [] => []
  | e :: rest => (e.1, deserialize_value e.2) :: deserializeProps rest

end

/-- The value kinds the round-trip claim ranges over: Undefined, Null, Bool,
Number and String. -/
def isWireScalar : Value → Bool
  | .undefined => true
  | .null => true
  | .bool _ => true
  | .number _ => true
  | .string _ => true
  | _ => false

/-- A value covered by the round-trip claim: one of the five scalars, a dense
array of such scalars, or a class-less object whose property values are such
scalars.  Objects carry pairwise distinct own-property names, as the
enumeration of a real object does. -/
def RoundTrippable (v : Value) : Prop :=
  isWireScalar v = true ∨
  (∃ dense, v = .array dense [] ∧ ∀ x ∈ dense, isWireScalar x = true) ∨
  (∃ props, v = .object props ∧ (props.map Prod.fst).Nodup ∧
      ∀ p ∈ props, isWireScalar p.2 = true)

/-- Dense storage of a decoded array value, when the value is an array. -/
def arrayDense : Value → Option (List Value)
  | .array dense _ => some dense
  | _ => none

/-- Named properties of a decoded array value, when the value is an array. -/
def arrayProps : Value → Option (List (String × Value))
  | .array _ props => some props
  | _ => none

/-- The recursive property serialization loop of `recursive_serialize` with
the fallible property getters of the source made explicit: each property
getter either yields a value or fails with an error, and a failing getter
propagates its error, aborting the loop. -/
def recursive_serialize {E : Type} (amf : AMFVersion) :
    List (String × Except E Value) → Except E (List (String × AmfValue))
  | [] => Except.ok []
  | (n, g) :: rest =>
      match g with
      | Except.error e => Except.error e
      | Except.ok v =>
          match recursive_serialize amf rest with
          | Except.error e => Except.error e
          | Except.ok tail =>
              Except.ok (match serialize_value amf v with
                | some w => (n, w) :: tail
                | none => tail)

end Avm2

namespace Avm1

mutual

/-- AVM1 value model (`avm1::Value` plus the object capabilities the AVM1
serializer of `shared_object.rs` inspects).  Object and array property maps
carry `GetRes` values: reading a property either yields a value or fails, as
`obj.get` of the source returns a `Result`.  `array` carries the length, the
indexed elements and the named properties of an AVM1 array object. -/
inductive Value where
  | undefined
  | null
  | bool (b : Bool)
  | number (f : Rat)
  | string (s : String)
  | movieClip
  | executable
  | displayObject
  | array (len : Nat) (elems : List (Int × Value)) (props : List (String × GetRes))
  | xmlNode (s : String)
  | date (t : Rat)
  | object (props : List (String × GetRes))

/-- Result of reading one property: either the stored value, or a failure
raised by a throwing getter. -/
inductive GetRes where
  | ok (v : Value)
  | err

end

mutual

/-- `serialize_value` of `core/src/avm1/globals/shared_object.rs`: converts
an AVM1 value to a wire value, or `none` to skip the property.  An array
encodes as an `ecmaArray` whose dense list is empty and whose associative
part holds every serialized property, with the array length as the reported
length. -/
def serialize_value : Value → Option AmfValue
  | .undefined => some .undefined
  | .movieClip => some .undefined
  | .null => some .null
  | .bool b => some (.bool b)
  | .number f => some (.number f)
  | .string s => some (.string s)
  | .executable => none
  | .displayObject => some .undefined
  | .array len elems props =>
      some (.ecmaArray [] (serializeProps props ++ serializeElems elems) len)
  | .xmlNode s => some (.xml s true)
  | .date t => some (.date t none)
  | .object props => some (.object (serializeProps props) none)

/-- The `recursive_serialize` loop of the AVM1 serializer over named
properties: keys are visited in reverse enumeration order (the source
iterates `get_keys(..).rev()`), a property whose getter fails is skipped,
and a value whose serialization is `none` contributes no element. -/
def serializeProps : List (String × GetRes) → List (String × AmfValue)
  | [] => []
  | (n, g) :: rest =>
      serializeProps rest ++
        (match g with
         | .ok v =>
             match serialize_value v with
             | some w => [(n, w)]
             | none => []
         | .err => [])

/-- The `recursive_serialize` loop of the AVM1 serializer over the indexed
elements of an array, in reverse order, with the decimal index as the
element name.  Modelled from the spec: the key enumeration of an AVM1 array
object yields the indexed elements after the named properties. -/
def serializeElems : List (Int × Value) → List (String × AmfValue)
  | [] => []
  | (i, v) :: rest =>
      serializeElems rest ++
        (match serialize_value v with
         | some w => [(toString i, w)]
         | none => [])

end

/-- `str::parse::<i32>` of Rust as the AVM1 decoder uses it on sparse element
names: an optional sign followed by at least one ASCII digit, rejected on
overflow of the `i32` range. -/
def parseI32 (s : String) : Option Int :=
  let cs := s.data
  let sd : Int × List Char :=
    match cs with
    | '+' :: rest => (1, rest)
    | '-' :: rest => (-1, rest)
    | _ => (1, cs)
  if sd.2 = [] ∨ ¬ sd.2.all (fun c => c.isDigit) then none
  else
    let v : Int := sd.1 * (sd.2.foldl (fun acc c => acc * 10 + (c.toNat - 48)) 0 : Nat)
    if v < -(2 ^ 31) ∨ v ≥ 2 ^ 31 then none else some v

/-- The assignment loop of the AVM1 `ecmaArray` decoder: starting from an
array of the reported length with no elements, each decoded associative
element whose name parses as an `i32` is stored as an indexed element and
every other one as a named property, in listed order.  Modelled from the
spec: indexed and named assignment on the freshly constructed array store
the entries in assignment order. -/
def buildEcmaArr (len : Nat) (decoded : List (String × Value)) : Value :=
  let es := decoded.foldl
    (fun (acc : List (Int × Value) × List (String × GetRes)) e =>
      match parseI32 e.1 with
      | some i => (aupsert acc.1 i e.2, acc.2)
      | none => (acc.1, aupsert acc.2 e.1 (GetRes.ok e.2)))
    ([], [])
  Value.array len es.1 es.2

/-- `define_value` assignment of decoded elements onto a fresh script
object, in listed order.  Modelled from the spec: definition stores the
properties in assignment order, overwriting in place on a repeated name. -/
def defineProps (decoded : List (String × Value)) : List (String × GetRes) :=
  decoded.foldl (fun acc e => aupsert acc e.1 (GetRes.ok e.2)) []

mutual

/-- `deserialize_value` of `core/src/avm1/globals/shared_object.rs`:
reconstructs an AVM1 value from a wire value.  The dense list of an
`ecmaArray` is ignored; the array is constructed with the reported length
and the associative elements are assigned in listed order.  Every
unrecognized wire variant (including `integer` and `strictArray`) decodes to
`undefined`, as the catch-all arm of the source does. -/
def deserialize_value : AmfValue → Value
  | .null => .null
  | .undefined => .undefined
  | .number f => .number f
  | .string s => .string s
  | .bool b => .bool b
  | .ecmaArray _ assoc len => buildEcmaArr len (deserializeProps assoc)
  | .object elements _ => .object (defineProps (deserializeProps elements))
  | .date t _ => .date t
  | .xml s _ => .xmlNode s
  | .integer _ => .undefined
  | .strictArray _ => .undefined

/-- Decodes the values of a named wire element list elementwise, keeping the
listed order. -/
def deserializeProps : List (String × AmfValue) → List (String × Value)
  | [] => []
  | e :: rest => (e.1, deserialize_value e.2) :: deserializeProps rest

end

end Avm1

namespace SharedObject

/-- Parsed Local Shared Object container (`flash_lso::types::Lso`): the byte
level reader and writer are an external codec, so storage holds containers
in already parsed form. -/
structure Lso where
  name : String
  body : List (String × AmfValue)
  version : AMFVersion

/-- `deserialize_lso` of `shared_object.rs` viewed as the property list of
the data object it constructs: each child of the container body is decoded
and defined on a fresh object, in listed order. -/
def lsoProps (lso : Lso) : List (String × Avm1.GetRes) :=
  lso.body.foldl
    (fun acc e => aupsert acc e.1 (Avm1.GetRes.ok (Avm1.deserialize_value e.2))) []

/-- The forbidden character set of `get_local` (`INVALID_CHARS`): tilde,
percent, ampersand, backslash, semicolon, colon, double quote, single quote,
comma, angle brackets, question mark, hash and space.  The two quote
characters are written by code point. -/
def invalidChars : List Char :=
  ['~', '%', '&', '\\', ';', ':', Char.ofNat 34, Char.ofNat 39,
   ',', '<', '>', '?', '#', ' ']

/-- Removes one leading slash, as `strip_prefix` with a slash pattern does. -/
def stripLeadSlash (l : List Char) : List Char :=
  match l with
  | '/' :: rest => rest
  | _ => l

/-- Removes one trailing slash, as `strip_suffix` with a slash pattern does. -/
def stripTrailSlash (l : List Char) : List Char :=
  if l.getLast? = some '/' then l.dropLast else l

/-- Splits on slashes with the semantics of Rust `str::split`: `n`
separators yield `n + 1` pieces and empty pieces are kept. -/
def splitSlash : List Char → List (List Char)
  | [] => [[]]
  | c :: rest =>
      let r := splitSlash rest
      if c = '/' then [] :: r
      else
        match r with
        | s :: ss => (c :: s) :: ss
        | [] => [[c]]

/-- The hosting document URL after the source has stripped query and
fragment, with the fields `get_local` reads: scheme, host and path. URL
parsing itself belongs to the external `url` crate. -/
structure ParsedUrl where
  scheme : List Char
  host : Option (List Char)
  path : List Char

/-- One trailing then one leading slash removed, the trimming `get_local`
applies to an explicit local-path override. -/
def trimSlashes (l : List Char) : List Char :=
  stripLeadSlash (stripTrailSlash l)

/-- The local-path override handling of `get_local`: a raw empty override is
rejected; otherwise one trailing and one leading slash are removed and the
trimmed override is accepted iff it is a string prefix of the movie path
that is empty, exact, or followed by a slash in the movie path.  With no
override the movie path itself is the local path. -/
def resolveLocalPath (localPath : Option (List Char)) (moviePath : List Char) :
    Option (List Char) :=
  match localPath with
  | none => some moviePath
  | some l =>
      if l = [] then none
      else
        let t := trimSlashes l
        if t.isPrefixOf moviePath ∧
            (t = [] ∨ moviePath.length = t.length ∨
              (moviePath.drop t.length).head? = some '/') then
          some t
        else none

/-- The key derivation of `get_local`: reject names with forbidden
characters, enforce the secure flag, compute the movie path (URL path with
one leading and one trailing slash trimmed, plus drive letter removal and
the literal localhost host for the file scheme), resolve the local path,
compose `host/localPath/name` with a hash mark before a name containing a
slash, and reject any key with a dot-initial segment. -/
def deriveKey (name : List Char) (localPath : Option (List Char)) (secure : Bool)
    (url : ParsedUrl) : Option (List Char) :=
  if name.any (fun c => invalidChars.contains c) then none
  else if secure ∧ ¬ url.scheme = "https".data then none
  else
    let mp0 := stripTrailSlash (stripLeadSlash url.path)
    let hostPath : List Char × List Char :=
      if url.scheme = "file".data then
        ("localhost".data,
          match mp0 with
          | _ :: ':' :: '/' :: rest => rest
          | l => l)
      else (url.host.getD [], mp0)
    match resolveLocalPath localPath hostPath.2 with
    | none => none
    | some lp =>
        let pfx : List Char := if name.contains '/' then "#".data else []
        let full := hostPath.1 ++ "/".data ++ lp ++ "/".data ++ pfx ++ name
        if (splitSlash full).any (fun s => s.head? = some '.') then none
        else some full

/-- One live shared object of the session: the storage key it was created
under (`set_name`) and a reference into the data-object heap (the `data`
property defined by `get_local`). -/
structure SOData where
  soName : List Char
  dataRef : Nat
deriving DecidableEq

/-- Session state of the Local Object Store: the per-key cache
(`avm1_shared_objects`), the heap of live shared objects, the heap of their
data objects (property lists), the external storage backend holding already
parsed containers (`none` for bytes that fail to parse), and an allocation
counter. -/
structure SOState where
  cache : List (List Char × Nat)
  sos : List (Nat × SOData)
  dataObjs : List (Nat × List (String × Avm1.GetRes))
  storage : List (List Char × Option Lso)
  nextId : Nat

/-- `get_local` of `shared_object.rs`: derive the key (null sentinel on
failure), return the cached instance unchanged on a cache hit, and otherwise
construct a fresh shared object whose data object is decoded from the
storage backend when a parseable container exists there, insert it into the
cache, and return it. -/
def get_local (name : List Char) (localPath : Option (List Char)) (secure : Bool)
    (url : ParsedUrl) (st : SOState) : Option Nat × SOState :=
  match deriveKey name localPath secure url with
  | none => (none, st)
  | some key =>
      match alookup st.cache key with
      | some id => (some id, st)
      | none =>
          let dataProps : List (String × Avm1.GetRes) :=
            match alookup st.storage key with
            | some (some lso) => lsoProps lso
            | _ => []
          let soId := st.nextId
          let dataId := st.nextId + 1
          (some soId,
            { cache := (key, soId) :: st.cache,
              sos := (soId, ⟨key, dataId⟩) :: st.sos,
              dataObjs := (dataId, dataProps) :: st.dataObjs,
              storage := st.storage,
              nextId := st.nextId + 2 })

/-- `clear` of `shared_object.rs`: delete every own property of the data
object of the given shared object (the data object is mutated in place, not
replaced) and remove the entry of its key from the storage backend; the
cache is untouched. -/
def clear (st : SOState) (id : Nat) : SOState :=
  match alookup st.sos id with
  | none => st
  | some so =>
      { st with
        dataObjs := aupsert st.dataObjs so.dataRef [],
        storage := aremove st.storage so.soName }

/-- Reads one property of the data object of a shared object through its
handle.  Modelled from the spec: public property read on the data object. -/
def readData (st : SOState) (id : Nat) (p : String) : Option Avm1.Value :=
  match alookup st.sos id with
  | none => none
  | some so =>
      match alookup st.dataObjs so.dataRef with
      | none => none
      | some props =>
          match alookup props p with
          | some (Avm1.GetRes.ok v) => some v
          | _ => none

/-- Writes one property of the data object of a shared object through its
handle.  Modelled from the spec: public property write on the data object. -/
def writeData (st : SOState) (id : Nat) (p : String) (v : Avm1.Value) : SOState :=
  match alookup st.sos id with
  | none => st
  | some so =>
      { st with
        dataObjs := aupsert st.dataObjs so.dataRef
          (aupsert ((alookup st.dataObjs so.dataRef).getD []) p (Avm1.GetRes.ok v)) }

/-- Session-state well-formedness: every cached shared object exists on the
heap and owns an existing data object. -/
def WFState (st : SOState) : Bool :=
  st.cache.all (fun kv =>
    match alookup st.sos kv.2 with
    | some so => (alookup st.dataObjs so.dataRef).isSome
    | none => false)

/-- The hosting document URL of the worked examples of the spec,
`https://example.com/game.swf` after query and fragment stripping. -/
def exampleUrl : ParsedUrl :=
  { scheme := "https".data, host := some ("example.com".data), path := "/game.swf".data }

/-- A small session state with one cached shared object, used to witness the
store theorems: the key `k` maps to shared object 0 whose data object 1
holds one property, and the storage backend holds an entry for `k`. -/
def exampleState : SOState :=
  { cache := [("k".data, 0)],
    sos := [(0, ⟨"k".data, 1⟩)],
    dataObjs := [(1, [("a", Avm1.GetRes.ok Avm1.Value.null)])],
    storage := [("k".data, none)],
    nextId := 2 }

end SharedObject


section AssocLemmas

variable {κ α : Type} [DecidableEq κ]

/-- Looking up the key just written by `aupsert` yields the written value. -/
theorem alookup_aupsert_self (l : List (κ × α)) (k : κ) (v : α) :
    alookup (aupsert l k v) k = some v := by
  induction l with
  | nil => simp [aupsert, alookup]
  | cons e rest ih =>
      obtain ⟨a, b⟩ := e
      by_cases h : a = k
      · subst h
        simp [aupsert, alookup]
      · simp [aupsert, h, alookup, ih]

/-- `aupsert` leaves every other key unchanged. -/
theorem alookup_aupsert_ne (l : List (κ × α)) (k j : κ) (v : α) (h : ¬ j = k) :
    alookup (aupsert l k v) j = alookup l j := by
  have hkj : ¬ k = j := fun hh => h hh.symm
  induction l with
  | nil => simp [aupsert, alookup, hkj]
  | cons e rest ih =>
      obtain ⟨a, b⟩ := e
      by_cases he : a = k
      · subst he
        simp [aupsert, alookup, hkj]
      · by_cases ha : a = j
        · subst ha
          simp [aupsert, he, alookup]
        · simp [aupsert, he, alookup, ha, ih]

/-- A successful lookup comes from a member of the list. -/
theorem alookup_mem (l : List (κ × α)) (k : κ) (v : α)
    (h : alookup l k = some v) : (k, v) ∈ l := by
  induction l with
  | nil => simp [alookup] at h
  | cons e rest ih =>
      obtain ⟨a, b⟩ := e
      by_cases he : a = k
      · subst he
        simp [alookup] at h
        subst h
        exact List.mem_cons_self _ _
      · simp [alookup, he] at h
        exact List.mem_cons_of_mem _ (ih h)

/-- Writing a fresh key appends it to the end of the association list. -/
theorem aupsert_append (l : List (κ × α)) (k : κ) (v : α)
    (h : k ∉ l.map Prod.fst) : aupsert l k v = l ++ [(k, v)] := by
  induction l with
  | nil => simp [aupsert]
  | cons e rest ih =>
      obtain ⟨a, b⟩ := e
      simp only [List.map_cons, List.mem_cons] at h
      push_neg at h
      have ha : ¬ a = k := fun hh => h.1 hh.symm
      simp [aupsert, ha, ih h.2]

/-- Removing one key from an association list: the removed key looks up to
`none` and every other key is untouched. -/
theorem alookup_aremove (n : κ) (l : List (κ × α)) (k : κ) :
    alookup (aremove l n) k = if k = n then none else alookup l k := by
  induction l with
  | nil => simp [aremove, alookup]
  | cons e rest ih =>
      obtain ⟨a, b⟩ := e
      by_cases he : a = n
      · subst he
        by_cases hk : k = a
        · subst hk
          simp [aremove, alookup, ih]
        · have hak : ¬ a = k := fun hh => hk hh.symm
          simp [aremove, alookup, ih, hk, hak]
      · by_cases hak : a = k
        · subst hak
          have hkn : ¬ a = n := he
          simp [aremove, he, alookup, hkn]
        · simp [aremove, he, alookup, hak, ih]

end AssocLemmas

section Avm2Lemmas

open Avm2

/-- Scalar round trip: each of the five scalar kinds serializes to a wire
value that decodes back to the original value, under both AMF versions. -/
theorem scalar_roundtrip (amf : AMFVersion) (v : Avm2.Value)
    (h : isWireScalar v = true) :
    ∃ w, serialize_value amf v = some w ∧ deserialize_value w = v := by
  cases v with
  | undefined => exact ⟨.undefined, rfl, rfl⟩
  | null => exact ⟨.null, rfl, rfl⟩
  | bool b => exact ⟨.bool b, rfl, rfl⟩
  | number f => exact ⟨.number f, rfl, rfl⟩
  | string s => exact ⟨.string s, rfl, rfl⟩
  | _ => simp [isWireScalar] at h

/-- A serialized dense list of scalars splits with an empty sparse part and
decodes back to the original dense list, for any starting index. -/
theorem dense_roundtrip (amf : AMFVersion) :
    ∀ (dense : List Avm2.Value) (i : Nat),
      (∀ x ∈ dense, isWireScalar x = true) →
      (splitGo i (serializeDense amf dense i)).2 = [] ∧
      deserializeList (splitGo i (serializeDense amf dense i)).1 = dense := by
  intro dense
  induction dense with
  | nil => intro i _; simp [serializeDense, splitGo, deserializeList]
  | cons v rest ih =>
      intro i h
      obtain ⟨w, hw, hdw⟩ := scalar_roundtrip amf v (h v (List.mem_cons_self _ _))
      have hrest := ih (i + 1) (fun x hx => h x (List.mem_cons_of_mem _ hx))
      simp only [serializeDense, hw, splitGo, if_pos rfl]
      simp only [deserializeList, hdw]
      exact ⟨hrest.1, by rw [hrest.2]⟩

/-- Serialized scalar properties decode back to the original property list,
name for name and in order. -/
theorem props_roundtrip (amf : AMFVersion) :
    ∀ props : List (String × Avm2.Value),
      (∀ p ∈ props, isWireScalar p.2 = true) →
      deserializeProps (serializeProps amf props) = props := by
  intro props
  induction props with
  | nil => intro _; simp [serializeProps, deserializeProps]
  | cons p rest ih =>
      intro h
      obtain ⟨w, hw, hdw⟩ := scalar_roundtrip amf p.2 (h p (List.mem_cons_self _ _))
      have hrest := ih (fun q hq => h q (List.mem_cons_of_mem _ hq))
      simp [serializeProps, hw, deserializeProps, hdw, hrest]

/-- Sequential assignment of pairwise fresh names onto an object appends the
assigned properties in assignment order. -/
theorem setProps_of_disjoint :
    ∀ (l init : List (String × Avm2.Value)),
      (l.map Prod.fst).Nodup →
      (∀ e ∈ l, e.1 ∉ init.map Prod.fst) →
      setProps init l = init ++ l := by
  intro l
  induction l with
  | nil => intro init _ _; simp [setProps]
  | cons e rest ih =>
      intro init hnd hdisj
      have hfresh : e.1 ∉ init.map Prod.fst := hdisj e (List.mem_cons_self _ _)
      have hstep : aupsert init e.1 e.2 = init ++ [e] := by
        rw [aupsert_append _ _ _ hfresh]
      simp only [List.map_cons, List.nodup_cons] at hnd
      have hrest : setProps (init ++ [e]) rest = (init ++ [e]) ++ rest := by
        refine ih (init ++ [e]) hnd.2 ?_
        intro q hq
        simp only [List.map_append, List.mem_append, List.map_cons]
        rintro (hq1 | hq2)
        · exact hdisj q (List.mem_cons_of_mem _ hq) hq1
        · have : q.1 = e.1 := by simpa using hq2
          exact hnd.1 (this ▸ List.mem_map_of_mem Prod.fst hq)
      calc setProps init (e :: rest) = setProps (aupsert init e.1 e.2) rest := rfl
        _ = setProps (init ++ [e]) rest := by rw [hstep]
        _ = (init ++ [e]) ++ rest := hrest
        _ = init ++ (e :: rest) := by simp

/-- Names are preserved by elementwise decoding of a wire element list. -/
theorem deserializeProps_names :
    ∀ l : List (String × AmfValue),
      (deserializeProps l).map Prod.fst = l.map Prod.fst := by
  intro l
  induction l with
  | nil => simp [deserializeProps]
  | cons e rest ih => simp [deserializeProps, ih]

/-- The dense/sparse split characterized by enumeration indices: the element
at overall position `j` of the serialized property list joins the dense
portion iff its name is the decimal rendering of `i + j`, and the sparse
list keeps the others in order. -/
theorem splitGo_enumFrom :
    ∀ (values : List (String × AmfValue)) (i : Nat),
      splitGo i values =
        ((values.enumFrom i).filterMap
            (fun e => if e.2.1 = toString e.1 then some e.2.2 else none),
         (values.enumFrom i).filterMap
            (fun e => if e.2.1 = toString e.1 then none else some e.2)) := by
  intro values
  induction values with
  | nil => intro i; simp [splitGo, List.enumFrom]
  | cons e rest ih =>
      intro i
      by_cases h : e.1 = toString i
      · simp [splitGo, h, List.enumFrom, ih (i + 1)]
      · simp [splitGo, h, List.enumFrom, ih (i + 1)]

end Avm2Lemmas

section Avm1Lemmas

/-- The AVM1 property serialization loop equals a reverse-order `filterMap`:
properties whose getter fails, and properties whose value serializes to
`none`, are skipped; every other property contributes its element, visiting
the keys in reverse enumeration order. -/
theorem avm1_serializeProps_filterMap :
    ∀ props : List (String × Avm1.GetRes),
      Avm1.serializeProps props = props.reverse.filterMap (fun p =>
        match p.2 with
        | Avm1.GetRes.ok v => (Avm1.serialize_value v).map (fun w => (p.1, w))
        | Avm1.GetRes.err => none) := by
  intro props
  induction props with
  | nil => simp [Avm1.serializeProps]
  | cons p rest ih =>
      obtain ⟨n, g⟩ := p
      cases g with
      | ok v =>
          cases hv : Avm1.serialize_value v with
          | none => simp [Avm1.serializeProps, hv, ih, List.filterMap_append]
          | some w => simp [Avm1.serializeProps, hv, ih, List.filterMap_append]
      | err => simp [Avm1.serializeProps, ih, List.filterMap_append]

/-- In the AVM2 recursive serialization loop, the first failing getter
propagates its error and aborts the whole loop. -/
theorem avm2_recursive_serialize_error {E : Type} (amf : AMFVersion) :
    ∀ (pre : List (String × Except E Avm2.Value)) (n : String) (e : E)
      (post : List (String × Except E Avm2.Value)),
      (∀ q ∈ pre, ∃ v, q.2 = Except.ok v) →
      Avm2.recursive_serialize amf (pre ++ (n, Except.error e) :: post) =
        Except.error e := by
  intro pre
  induction pre with
  | nil => intro n e post _; simp [Avm2.recursive_serialize]
  | cons q rest ih =>
      intro n e post h
      obtain ⟨nq, gq⟩ := q
      obtain ⟨v, hv⟩ := h (nq, gq) (List.mem_cons_self _ _)
      simp only at hv
      subst hv
      have hrest := ih n e post (fun r hr => h r (List.mem_cons_of_mem _ hr))
      simp [Avm2.recursive_serialize, hrest]

end Avm1Lemmas

section Claims

open Avm2 in
/-- C1: for every wire-representable value that is Undefined, Null, a Bool,
a Number, a String, a dense array of such scalars, or a class-less object
whose property values are such scalars, deserializing the result of
serializing the value under the same AMF version yields a value equal to the
original. -/
theorem C1_round_trip (amf : AMFVersion) (v : Avm2.Value)
    (h : RoundTrippable v) :
    ∃ w, serialize_value amf v = some w ∧ deserialize_value w = v := by
  rcases h with hs | ⟨dense, rfl, hd⟩ | ⟨props, rfl, hnd, hp⟩
  · exact scalar_roundtrip amf v hs
  · have hsplit := dense_roundtrip amf dense 0 hd
    refine ⟨AmfValue.strictArray (splitGo 0 (serializeDense amf dense 0)).1, ?_, ?_⟩
    · simp only [serialize_value, serializeProps, List.append_nil, splitDenseSparse]
      rw [hsplit.1]
      simp
    · simp only [deserialize_value]
      rw [hsplit.2]
  · refine ⟨AmfValue.object (serializeProps amf props)
        (if amf = AMFVersion.amf3 then
          some { name := class_to_alias ClassRef.objectClass,
                 dynamic := true, staticProperties := [] }
         else none), ?_, ?_⟩
    · simp only [serialize_value]
    · simp only [deserialize_value]
      rw [props_roundtrip amf props hp,
          setProps_of_disjoint props [] hnd (by intro e _he; simp)]
      simp

/-- Witness for C1 at a concrete class-less object of scalars under AMF3. -/
theorem C1_round_trip_witness :
    Avm2.RoundTrippable
      (Avm2.Value.object [("a", Avm2.Value.string "x"), ("b", Avm2.Value.null)]) ∧
    ∃ w, Avm2.serialize_value AMFVersion.amf3
          (Avm2.Value.object [("a", Avm2.Value.string "x"), ("b", Avm2.Value.null)])
          = some w ∧
        Avm2.deserialize_value w =
          Avm2.Value.object [("a", Avm2.Value.string "x"), ("b", Avm2.Value.null)] := by
  have hrt : Avm2.RoundTrippable
      (Avm2.Value.object [("a", Avm2.Value.string "x"), ("b", Avm2.Value.null)]) :=
    Or.inr (Or.inr ⟨_, rfl, by decide, by decide⟩)
  exact ⟨hrt, C1_round_trip AMFVersion.amf3 _ hrt⟩

open Avm2 in
/-- C3: an Integer is widened to a Number under AMF0 and, under AMF3, when it
lies outside the closed range from minus two to the 28th up to but excluding
two to the 28th; inside that range under AMF3 it stays an Integer.  The two
named instances of the claim are included. -/
theorem C3_integer_encoding :
    (∀ num : Int, serialize_value AMFVersion.amf0 (.integer num) =
        some (.number (num : Rat))) ∧
    (∀ num : Int, 2 ^ 28 ≤ num ∨ num < -(2 ^ 28) →
      serialize_value AMFVersion.amf3 (.integer num) = some (.number (num : Rat))) ∧
    (∀ num : Int, -(2 ^ 28) ≤ num → num < 2 ^ 28 →
      serialize_value AMFVersion.amf3 (.integer num) = some (.integer num)) ∧
    serialize_value AMFVersion.amf3 (.integer 300000000) =
      some (.number ((300000000 : Int) : Rat)) ∧
    serialize_value AMFVersion.amf3 (.integer 100) = some (.integer 100) := by
  refine ⟨?_, ?_, ?_, ?_, ?_⟩
  · intro num
    simp [serialize_value]
  · intro num h
    simp only [serialize_value]
    rw [if_pos (Or.inr (by omega))]
  · intro num h1 h2
    simp only [serialize_value]
    rw [if_neg ?_]
    rintro (hv | hr | hl)
    · exact AMFVersion.noConfusion hv
    · omega
    · omega
  · rfl
  · rfl

/-- Witness for C3 at the two integers the claim names. -/
theorem C3_integer_encoding_witness :
    (2 ^ 28 ≤ (300000000 : Int) ∨ (300000000 : Int) < -(2 ^ 28)) ∧
    (-(2 ^ 28) ≤ (100 : Int)) ∧ ((100 : Int) < 2 ^ 28) ∧
    Avm2.serialize_value AMFVersion.amf3 (.integer 300000000) =
      some (.number ((300000000 : Int) : Rat)) ∧
    Avm2.serialize_value AMFVersion.amf3 (.integer 100) = some (.integer 100) :=
  ⟨Or.inl (by norm_num), by norm_num, by norm_num,
   C3_integer_encoding.2.1 300000000 (Or.inl (by norm_num)),
   C3_integer_encoding.2.2.1 100 (by norm_num) (by norm_num)⟩

open Avm2 in
/-- C10: a date object with no underlying timestamp serializes to `none`, so
the property is omitted from the enclosing encoding entirely; a Date wire
value is produced exactly when the millisecond timestamp exists. -/
theorem C10_invalid_date_omitted :
    (∀ amf, serialize_value amf (.date none) = none) ∧
    (∀ amf t, serialize_value amf (.date (some t)) = some (.date t none)) ∧
    (∀ amf n (props : List (String × Avm2.Value)),
      serializeProps amf ((n, Avm2.Value.date none) :: props) =
        serializeProps amf props) := by
  refine ⟨?_, ?_, ?_⟩
  · intro amf
    simp [serialize_value]
  · intro amf t
    simp [serialize_value]
  · intro amf n props
    simp [serializeProps, serialize_value]

open SharedObject in
/-- C6: for the document URL `https://example.com/game.swf`, name `data`, no
override and a false secure flag, the key derivation succeeds with the key
`example.com/game.swf/data`; a name containing a slash gets a hash mark in
front of it. -/
theorem C6_key_derivation :
    SharedObject.deriveKey ("data".data) none false SharedObject.exampleUrl =
      some ("example.com/game.swf/data".data) ∧
    SharedObject.deriveKey ("a/b".data) none false SharedObject.exampleUrl =
      some ("example.com/game.swf/#a/b".data) := ⟨rfl, rfl⟩

end Claims

/-- Elementwise decoding preserves the length of a dense wire list. -/
theorem deserializeList_length :
    ∀ l : List AmfValue, (Avm2.deserializeList l).length = l.length := by
  intro l
  induction l with
  | nil => simp [Avm2.deserializeList]
  | cons v rest ih => simp [Avm2.deserializeList, ih]

open Avm2 in
/-- C2 (amended): a serialized property of an array-store object joins the
dense portion iff its name equals the decimal rendering of its overall index
in the enumeration sequence (not of its current dense position); the result
is a StrictArray exactly when the sparse list is empty; and the worked
example with properties 0, 1, 2 and foo yields dense a, b, c with the single
sparse element foo. -/
theorem C2_dense_sparse_split :
    (∀ values : List (String × AmfValue),
      (splitDenseSparse values).1 =
        values.enum.filterMap
          (fun e => if e.2.1 = toString e.1 then some e.2.2 else none) ∧
      (splitDenseSparse values).2 =
        values.enum.filterMap
          (fun e => if e.2.1 = toString e.1 then none else some e.2)) ∧
    (∀ (amf : AMFVersion) (dense : List Avm2.Value)
        (extra : List (String × Avm2.Value)),
      (∃ l, serialize_value amf (.array dense extra) = some (.strictArray l)) ↔
        (splitDenseSparse
          (serializeDense amf dense 0 ++ serializeProps amf extra)).2 = []) ∧
    serialize_value AMFVersion.amf3
        (.array [.string "a", .string "b", .string "c"] [("foo", .string "bar")]) =
      some (.ecmaArray [.string "a", .string "b", .string "c"]
        [("foo", .string "bar")] 1) := by
  refine ⟨?_, ?_, rfl⟩
  · intro values
    rw [splitDenseSparse, splitGo_enumFrom values 0, List.enum]
    exact ⟨rfl, rfl⟩
  · intro amf dense extra
    simp only [serialize_value]
    rcases h : (splitDenseSparse
        (serializeDense amf dense 0 ++ serializeProps amf extra)).2 with _ | ⟨e, es⟩
    · simp [h]
    · simp [h]

open Avm2 in
/-- C2 counterexample: with enumeration order foo then 0, the property named
0 has current dense position 0, so the claim as stated puts its value into
the dense portion; the code compares against the overall enumeration index 1
and leaves the dense portion empty. -/
theorem C2_dense_sparse_split_counterexample :
    serialize_value AMFVersion.amf3
        (.array [] [("foo", .string "bar"), ("0", .string "a")]) =
      some (.ecmaArray [] [("foo", AmfValue.string "bar"),
        ("0", AmfValue.string "a")] 2) ∧
    (splitDenseSparse [("foo", AmfValue.string "bar"),
        ("0", AmfValue.string "a")]).1 = [] ∧
    ∀ x : AmfValue,
      ¬ (splitDenseSparse [("foo", AmfValue.string "bar"),
          ("0", AmfValue.string "a")]).1 = [x] := by
  refine ⟨rfl, rfl, ?_⟩
  intro x h
  rw [show (splitDenseSparse [("foo", AmfValue.string "bar"),
      ("0", AmfValue.string "a")]).1 = [] from rfl] at h
  exact List.noConfusion h

open Avm2 in
/-- C4 (amended): the AVM2 decoder builds the array of an ECMAArray from the
dense value list, so its length is the length of the dense list and the
reported length is ignored; the sparse elements are then assigned as named
properties in listed order, not sorted by name.  The AVM1 decoder instead
constructs the array with the reported length, ignores the dense list, and
assigns each listed element in order, indexed elements for integer names and
named properties otherwise. -/
theorem C4_ecma_array_decode :
    (∀ (dense : List AmfValue) (assoc : List (String × AmfValue)) (len : Nat),
      arrayDense (deserialize_value (.ecmaArray dense assoc len)) =
        some (deserializeList dense) ∧
      (arrayDense (deserialize_value (.ecmaArray dense assoc len))).map
        List.length = some dense.length) ∧
    (∀ (dense : List AmfValue) (assoc : List (String × AmfValue)) (len : Nat),
      (assoc.map Prod.fst).Nodup →
      arrayProps (deserialize_value (.ecmaArray dense assoc len)) =
        some (deserializeProps assoc)) ∧
    deserialize_value (.ecmaArray [] [("b", .null), ("a", .null)] 0) =
      .array [] [("b", Avm2.Value.null), ("a", Avm2.Value.null)] ∧
    Avm1.deserialize_value (.ecmaArray [.number 1] [("0", .string "x")] 5) =
      Avm1.Value.array 5 [(0, Avm1.Value.string "x")] [] := by
  refine ⟨?_, ?_, rfl, rfl⟩
  · intro dense assoc len
    constructor
    · simp only [deserialize_value, arrayDense]
    · simp [deserialize_value, arrayDense, deserializeList_length]
  · intro dense assoc len hnd
    simp only [deserialize_value, arrayProps]
    rw [setProps_of_disjoint (deserializeProps assoc) []
        (by rw [deserializeProps_names]; exact hnd) (by intro e _he; simp)]
    simp

open Avm2 in
/-- C4 counterexample: decoding the ECMAArray with one dense value and
reported length five yields an array of length one, not five: the AVM2
decoder ignores the reported length. -/
theorem C4_ecma_array_decode_counterexample :
    (arrayDense (deserialize_value (.ecmaArray [.number 1] [] 5))).map
        List.length = some 1 ∧
    ¬ (arrayDense (deserialize_value (.ecmaArray [.number 1] [] 5))).map
        List.length = some 5 := ⟨rfl, by decide⟩

/-- Witness for C4 at a concrete two-element sparse list with distinct,
unsorted names. -/
theorem C4_ecma_array_decode_witness :
    (([("b", AmfValue.null), ("a", AmfValue.null)].map Prod.fst).Nodup) ∧
    Avm2.arrayProps (Avm2.deserialize_value
        (.ecmaArray [] [("b", AmfValue.null), ("a", AmfValue.null)] 0)) =
      some (Avm2.deserializeProps [("b", AmfValue.null), ("a", AmfValue.null)]) := by
  have hnd : (([("b", AmfValue.null), ("a", AmfValue.null)].map Prod.fst).Nodup) := by
    decide
  exact ⟨hnd, C4_ecma_array_decode.2.1 [] _ 0 hnd⟩

/-- C5 (amended): in the AVM2 recursive property serialization a failing
getter propagates its error and aborts the loop with no element list
produced; in the AVM1 serializer a failing getter causes only that property
to be skipped and serialization continues over the remaining properties, in
reverse key order. -/
theorem C5_getter_failure :
    (∀ (E : Type) (amf : AMFVersion) (pre : List (String × Except E Avm2.Value))
        (n : String) (e : E) (post : List (String × Except E Avm2.Value)),
        (∀ q ∈ pre, ∃ v, q.2 = Except.ok v) →
        Avm2.recursive_serialize amf (pre ++ (n, Except.error e) :: post) =
          Except.error e) ∧
    (∀ props : List (String × Avm1.GetRes),
      Avm1.serializeProps props = props.reverse.filterMap (fun p =>
        match p.2 with
        | Avm1.GetRes.ok v => (Avm1.serialize_value v).map (fun w => (p.1, w))
        | Avm1.GetRes.err => none)) :=
  ⟨fun _E amf pre n e post h => avm2_recursive_serialize_error amf pre n e post h,
   avm1_serializeProps_filterMap⟩

/-- C5 counterexample: the AVM1 serializer does not abort when the getter of
the property bad fails; it returns a partial element list holding only the
property good. -/
theorem C5_getter_failure_counterexample :
    Avm1.serialize_value
        (.object [("good", Avm1.GetRes.ok (.string "x")), ("bad", Avm1.GetRes.err)]) =
      some (.object [("good", AmfValue.string "x")] none) ∧
    ¬ Avm1.serialize_value
        (.object [("good", Avm1.GetRes.ok (.string "x")), ("bad", Avm1.GetRes.err)]) =
      none :=
  ⟨rfl, fun h => nomatch h⟩

/-- Witness for C5 at a concrete one-property prefix before a failing
getter. -/
theorem C5_getter_failure_witness :
    (∀ q ∈ ([("good", Except.ok (Avm2.Value.string "x"))] :
        List (String × Except Unit Avm2.Value)), ∃ v, q.2 = Except.ok v) ∧
    Avm2.recursive_serialize AMFVersion.amf3
        ([("good", Except.ok (Avm2.Value.string "x"))] ++
          ("bad", Except.error ()) :: []) = Except.error () := by
  have hpre : ∀ q ∈ ([("good", Except.ok (Avm2.Value.string "x"))] :
      List (String × Except Unit Avm2.Value)), ∃ v, q.2 = Except.ok v := by
    intro q hq
    rw [List.mem_singleton] at hq
    subst hq
    exact ⟨_, rfl⟩
  exact ⟨hpre, C5_getter_failure.1 Unit AMFVersion.amf3 _ "bad" () [] hpre⟩

open SharedObject in
/-- C7 (amended): a raw empty override is rejected; otherwise one trailing
and one leading slash are trimmed and the lookup is rejected (null sentinel)
unless the trimmed override is empty, or is a path-prefix of the movie path
ending at a slash-segment boundary (exact match or the next character of the
movie path is a slash); the override game against movie path game.swf is
rejected. -/
theorem C7_local_path_override :
    (∀ mp : List Char, resolveLocalPath (some []) mp = none) ∧
    (∀ (lp mp : List Char), ¬ lp = [] →
      ((resolveLocalPath (some lp) mp = some (trimSlashes lp)) ↔
        ∃ rest, mp = trimSlashes lp ++ rest ∧
          (trimSlashes lp = [] ∨ rest = [] ∨ rest.head? = some '/')) ∧
      (resolveLocalPath (some lp) mp = none ∨
        resolveLocalPath (some lp) mp = some (trimSlashes lp))) ∧
    SharedObject.deriveKey ("data".data) (some ("game".data)) false
      SharedObject.exampleUrl = none := by
  refine ⟨?_, ?_, rfl⟩
  · intro mp
    simp [resolveLocalPath]
  · intro lp mp hlp
    have hunfold : resolveLocalPath (some lp) mp =
        if (trimSlashes lp).isPrefixOf mp ∧
            (trimSlashes lp = [] ∨ mp.length = (trimSlashes lp).length ∨
              (mp.drop (trimSlashes lp).length).head? = some '/') then
          some (trimSlashes lp)
        else none := by
      simp [resolveLocalPath, hlp]
    constructor
    · rw [hunfold]
      by_cases hc : (trimSlashes lp).isPrefixOf mp ∧
          (trimSlashes lp = [] ∨ mp.length = (trimSlashes lp).length ∨
            (mp.drop (trimSlashes lp).length).head? = some '/')
      · rw [if_pos hc]
        constructor
        · intro _
          obtain ⟨rest, hrest⟩ := List.isPrefixOf_iff_prefix.mp hc.1
          refine ⟨rest, hrest.symm, ?_⟩
          rcases hc.2 with h0 | hlen | hsl
          · exact Or.inl h0
          · refine Or.inr (Or.inl ?_)
            have hsum : (trimSlashes lp).length + rest.length = mp.length := by
              rw [← hrest, List.length_append]
            have hzero : rest.length = 0 := by omega
            exact List.length_eq_zero.mp hzero
          · refine Or.inr (Or.inr ?_)
            rw [← hrest, List.drop_left] at hsl
            exact hsl
        · intro _
          rfl
      · rw [if_neg hc]
        constructor
        · intro h
          exact Option.noConfusion h
        · rintro ⟨rest, hmp, hcond⟩
          exfalso
          apply hc
          constructor
          · exact List.isPrefixOf_iff_prefix.mpr ⟨rest, hmp.symm⟩
          · rcases hcond with h0 | h0 | h0
            · exact Or.inl h0
            · subst h0
              refine Or.inr (Or.inl ?_)
              rw [hmp, List.length_append]
              simp
            · refine Or.inr (Or.inr ?_)
              rw [hmp, List.drop_left]
              exact h0
    · rw [hunfold]
      by_cases hc : (trimSlashes lp).isPrefixOf mp ∧
          (trimSlashes lp = [] ∨ mp.length = (trimSlashes lp).length ∨
            (mp.drop (trimSlashes lp).length).head? = some '/')
      · rw [if_pos hc]
        exact Or.inr rfl
      · rw [if_neg hc]
        exact Or.inl rfl

/-- C7 counterexample: the override consisting of a single slash trims to the
empty string, which is neither an exact match of the movie path game.swf nor
followed by a slash there, so the claim as stated demands the null sentinel;
the code accepts it and derives the key example.com//data. -/
theorem C7_local_path_override_counterexample :
    SharedObject.trimSlashes ("/".data) = [] ∧
    ¬ ("game.swf".data).length = (SharedObject.trimSlashes ("/".data)).length ∧
    ¬ (("game.swf".data).drop
        (SharedObject.trimSlashes ("/".data)).length).head? = some '/' ∧
    SharedObject.deriveKey ("data".data) (some ("/".data)) false
        SharedObject.exampleUrl = some ("example.com//data".data) := by
  refine ⟨rfl, by decide, by decide, rfl⟩

/-- Witness for C7 at the override game against movie path game.swf. -/
theorem C7_local_path_override_witness :
    ¬ ("game".data) = ([] : List Char) ∧
    (SharedObject.resolveLocalPath (some ("game".data)) ("game.swf".data) = none ∨
      SharedObject.resolveLocalPath (some ("game".data)) ("game.swf".data) =
        some (SharedObject.trimSlashes ("game".data))) := by
  have h : ¬ ("game".data) = ([] : List Char) := by decide
  exact ⟨h, (C7_local_path_override.2.1 ("game".data) ("game.swf".data) h).2⟩

open SharedObject in
/-- C8: a lookup whose derived key is already cached returns the cached
instance with the session state unchanged; and any lookup whose derivation
succeeds yields a handle that every repeated lookup with the same arguments
returns again unchanged, with writes through the shared handle visible to
reads through it. -/
theorem C8_cache_sharing (name : List Char) (localPath : Option (List Char))
    (secure : Bool) (url : ParsedUrl) (st : SOState) (k : List Char)
    (hk : deriveKey name localPath secure url = some k)
    (hwf : WFState st = true) :
    (∀ id, alookup st.cache k = some id →
      get_local name localPath secure url st = (some id, st)) ∧
    ∃ id st2,
      get_local name localPath secure url st = (some id, st2) ∧
      get_local name localPath secure url st2 = (some id, st2) ∧
      ∀ (p : String) (v : Avm1.Value),
        readData (writeData st2 id p v) id p = some v := by
  rcases hcache : alookup st.cache k with _ | id
  · constructor
    · intro id hid
      exact Option.noConfusion hid
    · refine ⟨st.nextId,
        { cache := (k, st.nextId) :: st.cache,
          sos := (st.nextId, ⟨k, st.nextId + 1⟩) :: st.sos,
          dataObjs := (st.nextId + 1,
            match alookup st.storage k with
            | some (some lso) => lsoProps lso
            | _ => []) :: st.dataObjs,
          storage := st.storage,
          nextId := st.nextId + 2 }, ?_, ?_, ?_⟩
      · simp [get_local, hk, hcache]
      · simp [get_local, hk, alookup]
      · intro p v
        simp [writeData, readData, alookup, alookup_aupsert_self]
  · have hmem := alookup_mem st.cache k id hcache
    have hwf2 := (List.all_eq_true.mp hwf) (k, id) hmem
    rcases hsos : alookup st.sos id with _ | so
    · simp only [hsos] at hwf2
      simp at hwf2
    · simp only [hsos] at hwf2
      constructor
      · intro id2 hid2
        injection hid2 with hsame
        subst hsame
        simp [get_local, hk, hcache]
      · refine ⟨id, st, ?_, ?_, ?_⟩
        · simp [get_local, hk, hcache]
        · simp [get_local, hk, hcache]
        · intro p v
          simp [writeData, readData, hsos, alookup_aupsert_self]

/-- Witness for C8 at a fresh session state and the worked example key. -/
theorem C8_cache_sharing_witness :
    SharedObject.deriveKey ("data".data) none false SharedObject.exampleUrl =
      some ("example.com/game.swf/data".data) ∧
    SharedObject.WFState ⟨[], [], [], [], 0⟩ = true ∧
    ∃ id st2,
      SharedObject.get_local ("data".data) none false SharedObject.exampleUrl
          ⟨[], [], [], [], 0⟩ = (some id, st2) ∧
      SharedObject.get_local ("data".data) none false SharedObject.exampleUrl st2 =
        (some id, st2) ∧
      ∀ (p : String) (v : Avm1.Value),
        SharedObject.readData (SharedObject.writeData st2 id p v) id p = some v :=
  ⟨rfl, rfl, (C8_cache_sharing ("data".data) none false SharedObject.exampleUrl
      ⟨[], [], [], [], 0⟩ ("example.com/game.swf/data".data) rfl rfl).2⟩

open SharedObject in
/-- C9: clear deletes every own property of the data object of the given
cached shared object and removes the key of the entry from the storage
backend, leaving everything else unchanged: the cache is untouched, the
shared object heap (hence the identity of the data object) is untouched,
every other data object is untouched, and the live handle now reads an
empty data object. -/
theorem C9_clear (st : SOState) (id : Nat) (so : SOData)
    (h : alookup st.sos id = some so) :
    (clear st id).cache = st.cache ∧
    (clear st id).nextId = st.nextId ∧
    (∀ j, alookup (clear st id).sos j = alookup st.sos j) ∧
    alookup (clear st id).dataObjs so.dataRef = some [] ∧
    (∀ j, ¬ j = so.dataRef →
      alookup (clear st id).dataObjs j = alookup st.dataObjs j) ∧
    (∀ key, alookup (clear st id).storage key =
      if key = so.soName then none else alookup st.storage key) ∧
    (∀ p, readData (clear st id) id p = none) := by
  have hcl : clear st id =
      { st with dataObjs := aupsert st.dataObjs so.dataRef [],
                storage := aremove st.storage so.soName } := by
    simp [clear, h]
  rw [hcl]
  refine ⟨rfl, rfl, fun j => rfl, ?_, ?_, ?_, ?_⟩
  · exact alookup_aupsert_self _ _ _
  · intro j hj
    exact alookup_aupsert_ne _ _ j _ hj
  · intro key
    exact alookup_aremove _ _ _
  · intro p
    simp [readData, h, alookup_aupsert_self, alookup]

/-- Witness for C9 at a one-entry session state. -/
theorem C9_clear_witness :
    alookup SharedObject.exampleState.sos 0 =
      some (⟨"k".data, 1⟩ : SharedObject.SOData) ∧
    (SharedObject.clear SharedObject.exampleState 0).cache =
      SharedObject.exampleState.cache ∧
    alookup (SharedObject.clear SharedObject.exampleState 0).dataObjs 1 = some [] := by
  have h : alookup SharedObject.exampleState.sos 0 =
      some (⟨"k".data, 1⟩ : SharedObject.SOData) := rfl
  have hc := C9_clear SharedObject.exampleState 0 ⟨"k".data, 1⟩ h
  exact ⟨h, hc.1, hc.2.2.2.1⟩
